import Mathlib

/-!
# Verification of the road-network routing engine (ssb-geopandas-util)

Shallow embedding of the network-analysis core of the repository:
the rule set and its change detection (`networkanalysisrules.py`),
the graph cache check (`networkanalysis.py`), the OD cost matrix
(`od_cost_matrix.py`), route recovery and k-routes (`_get_route.py`),
hole closing (`closing_network_holes.py`), and weight validation.

Geometry is embedded with exact rational coordinates; a pandas/numpy
`NaN`/`inf` cell is embedded as `Option.none`.  Python dataframe rows
become Lean lists, kept in dataframe order.
-/

/-- A 2-D point with exact rational coordinates. -/
abbrev Point : Type := ℚ × ℚ

/-! ## Rules and change detection (`networkanalysisrules.py`, `networkanalysis.py`)

`NetworkAnalysisRules` is a dataclass with six fields; `_update_rules`
stores a copy of each field (the `_`-prefixed attributes), and
`_rules_have_changed` compares each current field with its stored copy.
-/

/-- The six rule fields of the `NetworkAnalysisRules` dataclass
(`networkanalysisrules.py` lines 172-177). -/
structure NetworkAnalysisRules where
  weight : String
  search_tolerance : ℚ
  search_factor : ℚ
  split_lines : Bool
  nodedist_multiplier : Option ℚ
  nodedist_kmh : Option ℚ
deriving DecidableEq, Repr

/-- The rule object together with the copies of the fields stored by
`_update_rules` (`networkanalysisrules.py` lines 179-190): `stored.weight`
embeds `self._weight`, and so on. -/
structure RulesState where
  current : NetworkAnalysisRules
  stored : NetworkAnalysisRules
deriving DecidableEq, Repr

/-- `NetworkAnalysisRules._update_rules`: store every current field. -/
def updateRules (s : RulesState) : RulesState :=
  { s with stored := s.current }

/-- `NetworkAnalysisRules._rules_have_changed` (`networkanalysisrules.py`
lines 192-209), embedded check for check.  Line 208 of the source reads
`if self._nodedist_kmh != self._nodedist_kmh:` - it compares the stored
`_nodedist_kmh` with itself instead of with the current `nodedist_kmh`;
the embedding keeps that comparison as written.  A fall-through in Python
returns `None`, which is falsy, embedded as `false`. -/
def rulesHaveChanged (s : RulesState) : Bool :=
  if s.current.weight ≠ s.stored.weight then true
  else if s.current.search_factor ≠ s.stored.search_factor then true
  else if s.current.search_tolerance ≠ s.stored.search_tolerance then true
  else if s.current.split_lines ≠ s.stored.split_lines then true
  else if s.current.nodedist_multiplier ≠ s.stored.nodedist_multiplier then true
  else if s.stored.nodedist_kmh ≠ s.stored.nodedist_kmh then true
  else false

/-- A query point as carried by the `StartPoints`/`EndPoints` dataframes:
its `temp_idx` and its geometry. -/
structure QueryPoint where
  tempIdx : ℕ
  geom : Point
deriving DecidableEq, Repr

/-- `NetworkAnalysis` engine state relevant to the graph cache
(`networkanalysis.py`): whether a graph and a wkt snapshot exist, the rules
(with their stored copies), the wkt snapshots taken by `update_point_wkts`,
the vertex names of the compiled graph, and the current point sets.
A wkt string of a point is embedded as its coordinate pair. -/
structure EngineState where
  hasGraph : Bool
  hasWkts : Bool
  rules : RulesState
  startWkts : List Point
  endWkts : List Point
  graphVertexNames : List ℕ
  startPoints : List QueryPoint
  endPoints : Option (List QueryPoint)
  networkSources : List ℕ
  networkTargets : List ℕ
  nodeIds : List ℕ
  hasNodes : Bool
deriving Repr

/-- `NetworkAnalysis.points_have_changed` (`networkanalysis.py` lines
293-302): the stored wkt list differs from the current geometries, or some
`temp_idx` is not a vertex name of the cached graph. -/
def pointsHaveChanged (storedWkts : List Point) (points : List QueryPoint)
    (vertexNames : List ℕ) : Bool :=
  if storedWkts ≠ points.map (·.geom) then true
  else if ¬ (points.map (·.tempIdx)).all (fun x => vertexNames.contains x) then true
  else false

/-- `NetworkAnalysis.graph_is_up_to_date` (`networkanalysis.py` lines
272-291). -/
def graphIsUpToDate (e : EngineState) : Bool :=
  if ¬ e.hasGraph ∨ ¬ e.hasWkts then false
  else if rulesHaveChanged e.rules then false
  else if pointsHaveChanged e.startWkts e.startPoints e.graphVertexNames then false
  else match e.endPoints with
    | none => true
    | some eps =>
      if pointsHaveChanged e.endWkts eps e.graphVertexNames then false
      else true

/-- `Network.nodes_are_up_to_date` (`network.py` lines 133-145): the node
table exists and every `source` and `target` id of the edge table occurs
among the node ids. -/
def nodesAreUpToDate (e : EngineState) : Bool :=
  if ¬ e.hasNodes then false
  else if ¬ (e.networkSources.all (fun s => e.nodeIds.contains s)
      ∧ e.networkTargets.all (fun t => e.nodeIds.contains t)) then false
  else true

/-- `NetworkAnalysis.prepare_network_analysis` line 189: the compiled graph
is rebuilt exactly when `not (graph_is_up_to_date() and
nodes_are_up_to_date())`. -/
def prepareRebuildsGraph (e : EngineState) : Bool :=
  ¬ (graphIsUpToDate e ∧ nodesAreUpToDate e)

/-- Engine state for the C1 failing input: a one-edge network with a cached
graph, where the only change since the last query is that `nodedist_kmh`
went from `None` to `50`. -/
def kmhChangedEngine : EngineState :=
  let old : NetworkAnalysisRules :=
    { weight := "minutes", search_tolerance := 250, search_factor := 0,
      split_lines := false, nodedist_multiplier := none, nodedist_kmh := none }
  let new : NetworkAnalysisRules := { old with nodedist_kmh := some 50 }
  { hasGraph := true
    hasWkts := true
    rules := { current := new, stored := old }
    startWkts := [((0 : ℚ), (0 : ℚ))]
    endWkts := [((1 : ℚ), (0 : ℚ))]
    graphVertexNames := [0, 1, 2, 3]
    startPoints := [⟨2, ((0 : ℚ), (0 : ℚ))⟩]
    endPoints := some [⟨3, ((1 : ℚ), (0 : ℚ))⟩]
    networkSources := [0]
    networkTargets := [1]
    nodeIds := [0, 1]
    hasNodes := true }

/-- C1 The spec requires that changing any rule field, `nodedist_kmh`
included, forces a rebuild of the compiled graph before the next query.
In the code, `_rules_have_changed` compares `self._nodedist_kmh` with
itself (source line 208), so a change of `nodedist_kmh` alone is never
detected: on the failing input the current and stored `nodedist_kmh`
differ, yet `_rules_have_changed` reports no change, `graph_is_up_to_date`
reports the cached graph as current, and `prepare_network_analysis` does
not rebuild the graph. -/
theorem nodedist_kmh_change_not_detected :
    kmhChangedEngine.rules.current.nodedist_kmh ≠
      kmhChangedEngine.rules.stored.nodedist_kmh
    ∧ rulesHaveChanged kmhChangedEngine.rules = false
    ∧ graphIsUpToDate kmhChangedEngine = true
    ∧ prepareRebuildsGraph kmhChangedEngine = false := by
  refine ⟨by decide, by decide, by decide, by decide⟩

/-! ## Weight validation (`networkanalysisrules.py` lines 230-299)

The branch of `_validate_weight` for a named numeric column runs
`_check_for_nans`, then `_check_for_negative_values`, then `_try_to_float`.
The column values are embedded as `List (Option ℚ)`; a `NaN` cell is
`none`.  A pandas comparison with `NaN` (such as `NaN < 0` or `NaN >= 0`)
is `False`, which the embedded predicates reproduce. -/

/-- Keep predicate of `df.loc[df[col].notna()]`. -/
def cellNotNa (v : Option ℚ) : Bool :=
  v.isSome

/-- Keep predicate of `df.loc[df[col] >= 0]`: `NaN >= 0` is `False`. -/
def cellNonNeg (v : Option ℚ) : Bool :=
  match v with
  | some q => decide (0 ≤ q)
  | none => false

/-- Count predicate of `sum(df[col] < 0)`: `NaN < 0` is `False`. -/
def cellNeg (v : Option ℚ) : Bool :=
  match v with
  | some q => decide (q < 0)
  | none => false

/-- `NetworkAnalysisRules._check_for_nans` (lines 258-273): raise if every
value is `NaN`; if some values are `NaN`, warn and drop those rows;
otherwise return the frame unchanged. -/
def checkForNans (vals : List (Option ℚ)) : Except String (List (Option ℚ)) :=
  if vals.all (fun v => v.isNone) then
    Except.error "All values in the column are NaN."
  else if (vals.filter (fun v => v.isNone)).length ≠ 0 then
    Except.ok (vals.filter cellNotNa)
  else
    Except.ok vals

/-- `NetworkAnalysisRules._check_for_negative_values` (lines 275-287): if
some values are negative, warn and keep only the rows with value `>= 0`;
otherwise return the frame unchanged. -/
def checkForNegativeValues (vals : List (Option ℚ)) : List (Option ℚ) :=
  if (vals.filter cellNeg).length ≠ 0 then
    vals.filter cellNonNeg
  else
    vals

/-- The named-numeric-column branch of `NetworkAnalysisRules._validate_weight`
(lines 230-235): cast to float (identity on exact rationals), check for
NaNs, then check for negative values; `_try_to_float` is again the
identity.  An exception raised by `_check_for_nans` propagates. -/
def validateWeightNamedColumn (vals : List (Option ℚ)) :
    Except String (List (Option ℚ)) :=
  (checkForNans vals).map checkForNegativeValues

theorem filter_filter_of_cellNotNa (p : Option ℚ → Bool)
    (hp : ∀ v, p v = true → cellNotNa v = true) (vals : List (Option ℚ)) :
    (vals.filter cellNotNa).filter p = vals.filter p := by
  induction vals with
  | nil => rfl
  | cons v vs ih =>
    cases v with
    | none =>
      have hnone : p none = false := by
        cases hpv : p none
        · rfl
        · exact absurd (hp none hpv) (by simp [cellNotNa])
      simp [List.filter_cons, cellNotNa, hnone, ih]
    | some q => simp [List.filter_cons, cellNotNa, ih]

theorem cellNonNeg_implies_notNa : ∀ v, cellNonNeg v = true → cellNotNa v = true := by
  intro v h
  cases v <;> simp_all [cellNonNeg, cellNotNa]

theorem cellNeg_implies_notNa : ∀ v, cellNeg v = true → cellNotNa v = true := by
  intro v h
  cases v <;> simp_all [cellNeg, cellNotNa]

theorem filter_notNa_eq_filter_nonNeg (vals : List (Option ℚ))
    (h : ∀ v ∈ vals, cellNeg v = false) :
    vals.filter cellNotNa = vals.filter cellNonNeg := by
  induction vals with
  | nil => rfl
  | cons v vs ih =>
    have hv := h v (by simp)
    have hrest : ∀ w ∈ vs, cellNeg w = false := fun w hw => h w (by simp [hw])
    cases v with
    | none => simp [List.filter_cons, cellNotNa, cellNonNeg, ih hrest]
    | some q =>
      have hq : (0 : ℚ) ≤ q := le_of_not_lt (by simpa [cellNeg] using hv)
      simp [List.filter_cons, cellNotNa, cellNonNeg, hq, ih hrest]

theorem filter_nonNeg_eq_self (vals : List (Option ℚ))
    (hnone : ∀ v ∈ vals, v.isNone = false)
    (hneg : ∀ v ∈ vals, cellNeg v = false) :
    vals.filter cellNonNeg = vals := by
  induction vals with
  | nil => rfl
  | cons v vs ih =>
    have h1 := hnone v (by simp)
    have h2 := hneg v (by simp)
    have ih2 := ih (fun w hw => hnone w (by simp [hw])) (fun w hw => hneg w (by simp [hw]))
    cases v with
    | none => simp at h1
    | some q =>
      have hq : (0 : ℚ) ≤ q := le_of_not_lt (by simpa [cellNeg] using h2)
      simp [List.filter_cons, cellNonNeg, hq, ih2]

theorem validate_ok_eq_filter (vals : List (Option ℚ))
    (h : vals.all (fun v => v.isNone) = false) :
    validateWeightNamedColumn vals = Except.ok (vals.filter cellNonNeg) := by
  have hcond : ¬ (vals.all (fun v => v.isNone) = true) := by simp [h]
  unfold validateWeightNamedColumn checkForNans
  rw [if_neg hcond]
  by_cases h2 : (vals.filter (fun v => v.isNone)).length = 0
  · rw [if_neg (not_not_intro h2)]
    have hnone : ∀ v ∈ vals, v.isNone = false := by
      have := List.filter_eq_nil_iff.mp (List.length_eq_zero.mp h2)
      intro v hv
      have h' := this v hv
      cases v <;> simp_all
    simp only [Except.map]
    unfold checkForNegativeValues
    by_cases h3 : (vals.filter cellNeg).length = 0
    · rw [if_neg (not_not_intro h3)]
      have hneg : ∀ v ∈ vals, cellNeg v = false := by
        have := List.filter_eq_nil_iff.mp (List.length_eq_zero.mp h3)
        intro v hv
        have h' := this v hv
        cases hc : cellNeg v
        · rfl
        · exact absurd hc (by simpa using h')
      rw [filter_nonNeg_eq_self vals hnone hneg]
    · rw [if_pos h3]
  · rw [if_pos h2]
    simp only [Except.map]
    unfold checkForNegativeValues
    rw [filter_filter_of_cellNotNa cellNeg cellNeg_implies_notNa,
      filter_filter_of_cellNotNa cellNonNeg cellNonNeg_implies_notNa]
    by_cases h3 : (vals.filter cellNeg).length = 0
    · rw [if_neg (not_not_intro h3)]
      have hneg : ∀ v ∈ vals, cellNeg v = false := by
        have := List.filter_eq_nil_iff.mp (List.length_eq_zero.mp h3)
        intro v hv
        have h' := this v hv
        cases hc : cellNeg v
        · rfl
        · exact absurd hc (by simpa using h')
      rw [filter_notNa_eq_filter_nonNeg vals hneg]
    · rw [if_pos h3]

/-- C8 When the weight rule names a numeric column, validation keeps
exactly the rows whose value is non-null and non-negative: it raises
exactly when every value is NaN, and otherwise returns (with warnings, not
errors) the rows whose value `v` satisfies `v` is not NaN and `0 ≤ v`. -/
theorem weight_validation_law (vals : List (Option ℚ)) :
    (validateWeightNamedColumn vals
        = Except.error "All values in the column are NaN."
      ↔ vals.all (fun v => v.isNone) = true)
    ∧ (vals.all (fun v => v.isNone) = false →
      validateWeightNamedColumn vals = Except.ok (vals.filter cellNonNeg)) := by
  constructor
  · constructor
    · intro hv
      by_contra hall
      rw [validate_ok_eq_filter vals (by simpa using hall)] at hv
      exact Except.noConfusion hv
    · intro hall
      simp [validateWeightNamedColumn, checkForNans, hall, Except.map]
  · exact validate_ok_eq_filter vals

/-- Evaluation of `weight_validation_law` on a concrete column: the NaN row
and the negative row are dropped, the zero row is kept, and the all-NaN
column errors. -/
theorem weight_validation_law_witness :
    validateWeightNamedColumn [some 3, none, some (-2), some 0]
      = Except.ok [some 3, some 0]
    ∧ validateWeightNamedColumn [none, none]
      = Except.error "All values in the column are NaN." := by
  constructor
  · rw [(weight_validation_law [some 3, none, some (-2), some 0]).2 (by decide)]
    rfl
  · exact (weight_validation_law [none, none]).1.mpr (by decide)

/-! ## Graph assembly (`networkanalysis.py` lines 254-270)

`make_graph` builds the igraph object from the fused edge and weight lists
and asserts that every weight is non-negative.  The weights are the
validated network weights followed by the connector-edge weights computed
for the query points. -/

/-- Minimum of a list of rationals, Python `min`; `none` on the empty list,
where Python raises `ValueError`. -/
def listMinQ : List ℚ → Option ℚ
  | [] => none
  | x :: xs =>
    match listMinQ xs with
    | none => some x
    | some m => some (min x m)

/-- The compiled graph: edge list plus parallel weight list. -/
structure IGraph where
  edges : List (ℕ × ℕ)
  weights : List ℚ
deriving Repr

/-- `NetworkAnalysis.make_graph` (`networkanalysis.py` lines 254-270):
assert that the edge and weight lists have equal length, build the graph,
assert `min(graph.es["weight"]) >= 0`.  A failed Python `assert` (or the
`ValueError` of `min` on an empty sequence) is an `Except.error`. -/
def makeGraph (edges : List (ℕ × ℕ)) (weights : List ℚ) : Except String IGraph :=
  if edges.length ≠ weights.length then
    Except.error "assert len(edges) == len(weights)"
  else
    match listMinQ weights with
    | none => Except.error "min() arg is an empty sequence"
    | some m =>
      if m < 0 then Except.error "assert min(weight) >= 0"
      else Except.ok ⟨edges, weights⟩

/-- The connector-weight rule of the rule set: `nodedist_kmh`,
`nodedist_multiplier`, or neither (weight 0). -/
inductive NodedistRule where
  | zero : NodedistRule
  | kmh (v : ℚ) : NodedistRule
  | multiplier (m : ℚ) : NodedistRule

/-- Modelled from the spec: the connector-weight function of the rule set
(spec section 4.8); the code computing connector-edge weights (`points.py`)
is not under `src/`.  *zero* gives 0, *speed-kmh v* gives
`distance / (v*1000/60)`, *length-multiplier m* gives `distance * m`. -/
def connectorWeight : NodedistRule → ℚ → ℚ
  | NodedistRule.zero, _ => 0
  | NodedistRule.kmh v, d => d / (v * 1000 / 60)
  | NodedistRule.multiplier m, d => d * m

theorem listMinQ_nonneg (l : List ℚ) (h : ∀ w ∈ l, 0 ≤ w) :
    ∀ m, listMinQ l = some m → 0 ≤ m := by
  induction l with
  | nil => intro m hm; exact Option.noConfusion hm
  | cons x xs ih =>
    intro m hm
    have hx := h x (by simp)
    unfold listMinQ at hm
    cases hxs : listMinQ xs with
    | none => rw [hxs] at hm; exact (Option.some_inj.mp hm) ▸ hx
    | some m2 =>
      rw [hxs] at hm
      have h2 := ih (fun w hw => h w (by simp [hw])) m2 hxs
      have := Option.some_inj.mp hm
      rw [← this]
      exact le_min hx h2

theorem listMinQ_isSome (l : List ℚ) (h : l ≠ []) : ∃ m, listMinQ l = some m := by
  cases l with
  | nil => exact absurd rfl h
  | cons x xs =>
    unfold listMinQ
    cases listMinQ xs with
    | none => exact ⟨x, rfl⟩
    | some m2 => exact ⟨min x m2, rfl⟩

theorem mem_reduceOption_filter_nonneg (vals : List (Option ℚ)) :
    ∀ w ∈ (vals.filter cellNonNeg).reduceOption, 0 ≤ w := by
  intro w hw
  have : some w ∈ vals.filter cellNonNeg := List.reduceOption_mem_iff.mp hw
  have hkeep := List.of_mem_filter this
  simpa [cellNonNeg] using hkeep

/-- C9 After graph assembly the compiled graph's weights - the validated
network weights followed by the connector weights - are all non-negative,
so the `min(weight) >= 0` assertion in `make_graph` never fails: for every
network column that passed weight validation, every list of non-negative
point-to-node distances, and every connector rule with its parameter in
the documented range, `make_graph` returns a graph rather than an
assertion error. -/
theorem make_graph_assertion_never_fails
    (vals validated : List (Option ℚ))
    (hval : validateWeightNamedColumn vals = Except.ok validated)
    (rule : NodedistRule) (dists : List ℚ)
    (hd : ∀ d ∈ dists, 0 ≤ d)
    (hrule : match rule with
      | NodedistRule.zero => True
      | NodedistRule.kmh v => 0 < v
      | NodedistRule.multiplier m => 0 ≤ m)
    (edges : List (ℕ × ℕ))
    (hlen : edges.length
      = (validated.reduceOption ++ dists.map (connectorWeight rule)).length)
    (hne : validated.reduceOption ++ dists.map (connectorWeight rule) ≠ []) :
    ∃ g, makeGraph edges (validated.reduceOption ++ dists.map (connectorWeight rule))
      = Except.ok g := by
  have hvfilter : validated = vals.filter cellNonNeg := by
    by_cases hall : vals.all (fun v => v.isNone) = true
    · rw [validateWeightNamedColumn, checkForNans, if_pos hall] at hval
      exact Except.noConfusion hval
    · rw [validate_ok_eq_filter vals (by simpa using hall)] at hval
      exact (Except.ok.inj hval).symm
  have hnetw : ∀ w ∈ validated.reduceOption, 0 ≤ w := by
    rw [hvfilter]; exact mem_reduceOption_filter_nonneg vals
  have hconn : ∀ w ∈ dists.map (connectorWeight rule), 0 ≤ w := by
    intro w hw
    obtain ⟨d, hd2, rfl⟩ := List.mem_map.mp hw
    cases rule with
    | zero => exact le_refl 0
    | kmh v =>
      have hv : (0 : ℚ) < v := hrule
      exact div_nonneg (hd d hd2) (by positivity)
    | multiplier m => exact mul_nonneg (hd d hd2) hrule
  have hall : ∀ w ∈ validated.reduceOption ++ dists.map (connectorWeight rule), 0 ≤ w := by
    intro w hw
    rcases List.mem_append.mp hw with h | h
    · exact hnetw w h
    · exact hconn w h
  obtain ⟨m, hm⟩ := listMinQ_isSome _ hne
  have hm0 : 0 ≤ m := listMinQ_nonneg _ hall m hm
  refine ⟨⟨edges, validated.reduceOption ++ dists.map (connectorWeight rule)⟩, ?_⟩
  unfold makeGraph
  rw [if_neg (not_not_intro hlen), hm]
  exact if_neg (not_lt.mpr hm0)

/-- Evaluation of `make_graph_assertion_never_fails` on a concrete network
(one validated weight row, one connector distance, zero connector rule). -/
theorem make_graph_assertion_never_fails_witness :
    ∃ g, makeGraph [(0, 1), (2, 0)]
      ([some (3 : ℚ)].reduceOption
        ++ [(2 : ℚ)].map (connectorWeight NodedistRule.zero))
      = Except.ok g := by
  refine make_graph_assertion_never_fails [some 3] [some 3] ?_
    NodedistRule.zero [2] ?_ trivial [(0, 1), (2, 0)] ?_ ?_
  · rfl
  · intro d hd
    simp only [List.mem_singleton] at hd
    rw [hd]; norm_num
  · rfl
  · simp [connectorWeight]

/-! ## OD cost matrix (`od_cost_matrix.py`)

`_od_cost_matrix` computes all-pairs Dijkstra distances, builds one row per
(origin, destination) pair in origin-major input order, replaces `inf` by
`NaN`, optionally filters (rowwise template merge, cutoff,
destination_count), and finally forces the cost of wkt-coincident pairs to
zero.  Graph distances are embedded as a function to `Option ℚ`, with
`none` for an infinite distance, so the `replace([inf], nan)` step is
folded into the embedding; a point wkt is embedded as its coordinate
pair. -/

/-- One row of the OD cost matrix; a missing (`NaN`) cost is `none`. -/
structure OdRow where
  origin : ℕ
  destination : ℕ
  cost : Option ℚ
deriving DecidableEq, Repr

/-- The nested loop of `_od_cost_matrix` (lines 32-43): one row per
(origin, destination) pair, origins outermost, both in input order. -/
def allPairsRows (d : ℕ → ℕ → Option ℚ) (origins destinations : List QueryPoint) :
    List OdRow :=
  origins.flatMap fun o =>
    destinations.map fun t =>
      ⟨o.tempIdx, t.tempIdx, d o.tempIdx t.tempIdx⟩

/-- The rowwise template merge (lines 47-51): an inner merge of the
`(origin_i, destination_i)` template with the all-pairs frame, preserving
template order. -/
def rowwiseFilter (origins destinations : List QueryPoint) (rows : List OdRow) :
    List OdRow :=
  (List.zip origins destinations).flatMap fun ot =>
    rows.filter fun r => r.origin == ot.1.tempIdx && r.destination == ot.2.tempIdx

/-- The cutoff filter (lines 53-54): `if cutoff:` is Python truthiness, so
`None` and `0` both skip the filter; otherwise keep rows with
`cost < cutoff`, which drops `NaN` rows. -/
def applyCutoff (cutoff : Option ℚ) (rows : List OdRow) : List OdRow :=
  match cutoff with
  | none => rows
  | some c =>
    if c = 0 then rows
    else
      rows.filter fun r =>
        match r.cost with
        | some q => decide (q < c)
        | none => false

/-- Cost values of the rows of one origin group, as used by
`results.groupby("origin")[weight]`. -/
def groupCosts (rows : List OdRow) (origin : ℕ) : List ℚ :=
  rows.filterMap fun r => if r.origin == origin then r.cost else none

/-- The pandas `rank()` of value `v` within a group, default method
`average`: the number of strictly smaller values plus half of
(ties + 1). -/
def avgRank (group : List ℚ) (v : ℚ) : ℚ :=
  ((group.filter fun w => decide (w < v)).length : ℚ)
    + (((group.filter fun w => decide (w = v)).length : ℚ) + 1) / 2

/-- The destination_count filter (lines 56-59): Python-truthy like cutoff;
drop `NaN` rows, then keep the rows whose rank within their origin group is
at most `destination_count`. -/
def applyDestinationCount (dc : Option ℕ) (rows : List OdRow) : List OdRow :=
  match dc with
  | none => rows
  | some k =>
    if k = 0 then rows
    else
      let nn := rows.filter fun r => r.cost.isSome
      nn.filter fun r =>
        match r.cost with
        | some q => decide (avgRank (groupCosts nn r.origin) q ≤ (k : ℚ))
        | none => false

/-- The wkt dictionaries of lines 61-67: built in iteration order, so for a
duplicated `temp_idx` the last geometry wins. -/
def wktLookup (pts : List QueryPoint) (i : ℕ) : Option Point :=
  (pts.reverse.find? fun p => p.tempIdx == i).map (·.geom)

/-- Line 71: `np.where(results.wkt_ori == results.wkt_des, 0, results[weight])`,
run after all the filters. -/
def forceZeroCoincident (origins destinations : List QueryPoint)
    (rows : List OdRow) : List OdRow :=
  rows.map fun r =>
    if wktLookup origins r.origin = wktLookup destinations r.destination then
      { r with cost := some 0 }
    else r

/-- `_od_cost_matrix` (`od_cost_matrix.py` lines 10-82), without the
cosmetic `lines` geometry column.  The `ValueError` for `rowwise=True` with
unequal lengths is `Except.error`. -/
def odCostMatrix (d : ℕ → ℕ → Option ℚ) (origins destinations : List QueryPoint)
    (rowwise : Bool) (cutoff : Option ℚ) (destinationCount : Option ℕ) :
    Except String (List OdRow) :=
  if rowwise ∧ origins.length ≠ destinations.length then
    Except.error "rowwise requires equal lengths"
  else
    let rows := allPairsRows d origins destinations
    let rows := if rowwise then rowwiseFilter origins destinations rows else rows
    let rows := applyCutoff cutoff rows
    let rows := applyDestinationCount destinationCount rows
    Except.ok (forceZeroCoincident origins destinations rows)

/-- C2 is refuted on this input: one origin and one destination at the
same coordinate, unreachable in the graph (distance `inf`, hence cost
`NaN`), with `cutoff=1`.  The cutoff filter runs before the zero-forcing
and drops the `NaN` row, so the returned matrix is empty: no cost of 0 is
reported for the coincident pair, contradicting the claim that the cost is
0 regardless of the cutoff option. -/
theorem od_cutoff_drops_coincident_pair :
    odCostMatrix (fun _ _ => none)
        [⟨1, ((0 : ℚ), (0 : ℚ))⟩] [⟨2, ((0 : ℚ), (0 : ℚ))⟩]
        false (some 1) none
      = Except.ok []
    ∧ (⟨1, ((0 : ℚ), (0 : ℚ))⟩ : QueryPoint).geom
      = (⟨2, ((0 : ℚ), (0 : ℚ))⟩ : QueryPoint).geom := by
  exact ⟨rfl, rfl⟩

/-- C2 (amended) Every row present in the returned OD matrix whose origin
and destination wkts coincide has cost exactly 0, for every graph and every
combination of the rowwise, cutoff and destination_count options; pairs
removed by those filters (which run before the zero-forcing) may be absent
from the matrix altogether. -/
theorem od_coincident_rows_cost_zero (d : ℕ → ℕ → Option ℚ)
    (origins destinations : List QueryPoint) (rowwise : Bool)
    (cutoff : Option ℚ) (dc : Option ℕ) (rows : List OdRow)
    (h : odCostMatrix d origins destinations rowwise cutoff dc = Except.ok rows)
    (r : OdRow) (hr : r ∈ rows)
    (hco : wktLookup origins r.origin = wktLookup destinations r.destination) :
    r.cost = some 0 := by
  unfold odCostMatrix at h
  by_cases hc : rowwise ∧ origins.length ≠ destinations.length
  · rw [if_pos hc] at h
    exact Except.noConfusion h
  · rw [if_neg hc] at h
    have hrows : rows = forceZeroCoincident origins destinations _ := (Except.ok.inj h).symm
    rw [hrows] at hr
    obtain ⟨r0, _, hr0⟩ := List.mem_map.mp hr
    by_cases hz : wktLookup origins r0.origin = wktLookup destinations r0.destination
    · rw [if_pos hz] at hr0
      rw [← hr0]
    · rw [if_neg hz] at hr0
      rw [← hr0] at hco
      exact absurd hco hz

/-- Evaluation of `od_coincident_rows_cost_zero` on a concrete run: with no
options set, the coincident (and even unreachable) pair gets cost 0. -/
theorem od_coincident_rows_cost_zero_witness :
    (⟨1, 2, some 0⟩ : OdRow).cost = some 0 := by
  exact od_coincident_rows_cost_zero (fun _ _ => none)
    [⟨1, ((0 : ℚ), (0 : ℚ))⟩] [⟨2, ((0 : ℚ), (0 : ℚ))⟩] false none none
    [⟨1, 2, some 0⟩] rfl ⟨1, 2, some 0⟩ (by simp) rfl

theorem wktLookup_of_mem (pts : List QueryPoint)
    (hnodup : (pts.map (·.tempIdx)).Nodup) (p : QueryPoint) (hp : p ∈ pts) :
    wktLookup pts p.tempIdx = some p.geom := by
  induction pts with
  | nil => exact absurd hp (List.not_mem_nil p)
  | cons q qs ih =>
    simp only [List.map_cons, List.nodup_cons] at hnodup
    obtain ⟨hqnot, hqs⟩ := hnodup
    unfold wktLookup
    rw [List.reverse_cons, List.find?_append]
    rcases List.mem_cons.mp hp with rfl | hmem
    · have hnone : qs.reverse.find? (fun x => x.tempIdx == p.tempIdx) = none := by
        rw [List.find?_eq_none]
        intro x hx
        have : x.tempIdx ∈ qs.map (·.tempIdx) :=
          List.mem_map_of_mem _ (List.mem_reverse.mp hx)
        simp only [beq_iff_eq]
        intro hxe
        exact hqnot (hxe ▸ this)
      rw [hnone]
      simp [List.find?]
    · have := ih hqs hmem
      unfold wktLookup at this
      cases hfind : qs.reverse.find? (fun x => x.tempIdx == p.tempIdx) with
      | none => rw [hfind] at this; simp at this
      | some w => rw [hfind] at this; simpa [Option.or] using this

theorem flatMap_map_length (f : QueryPoint → QueryPoint → OdRow)
    (origins destinations : List QueryPoint) :
    (origins.flatMap fun o => destinations.map (f o)).length
      = origins.length * destinations.length := by
  induction origins with
  | nil => simp
  | cons o os ih =>
    simp only [List.flatMap_cons, List.length_append, List.length_map, ih,
      List.length_cons, Nat.succ_mul, Nat.add_comm]

theorem flatMap_congr_mem (l : List QueryPoint) (f g : QueryPoint → List OdRow)
    (h : ∀ a ∈ l, f a = g a) : l.flatMap f = l.flatMap g := by
  induction l with
  | nil => rfl
  | cons a as ih =>
    rw [List.flatMap_cons, List.flatMap_cons, h a (by simp),
      ih fun b hb => h b (by simp [hb])]

theorem map_congr_mem (l : List QueryPoint) (f g : QueryPoint → OdRow)
    (h : ∀ a ∈ l, f a = g a) : l.map f = l.map g := by
  induction l with
  | nil => rfl
  | cons a as ih =>
    rw [List.map_cons, List.map_cons, h a (by simp),
      ih fun b hb => h b (by simp [hb])]

/-- C10 (amended) With `rowwise=False`, no cutoff and no
destination_count, and distinct temp indices, the OD cost matrix has
exactly one row per (origin, destination) pair -
`len(origins)*len(destinations)` rows - ordered by origins in input order
and destinations in input order within each origin; an unreachable pair is
present as a row whose cost is missing, unless its origin and destination
are coordinate-equal, in which case the cost is forced to 0. -/
theorem od_all_pairs_in_order (d : ℕ → ℕ → Option ℚ)
    (origins destinations : List QueryPoint)
    (h1 : (origins.map (·.tempIdx)).Nodup)
    (h2 : (destinations.map (·.tempIdx)).Nodup) :
    odCostMatrix d origins destinations false none none
      = Except.ok (origins.flatMap fun o => destinations.map fun t =>
          ⟨o.tempIdx, t.tempIdx,
            if o.geom = t.geom then some 0 else d o.tempIdx t.tempIdx⟩)
    ∧ (origins.flatMap fun o => destinations.map fun t =>
        (⟨o.tempIdx, t.tempIdx,
          if o.geom = t.geom then some 0 else d o.tempIdx t.tempIdx⟩ : OdRow)).length
      = origins.length * destinations.length := by
  constructor
  · unfold odCostMatrix
    rw [if_neg (by simp)]
    show Except.ok (forceZeroCoincident origins destinations
      (allPairsRows d origins destinations)) = _
    congr 1
    unfold forceZeroCoincident allPairsRows
    rw [List.map_flatMap]
    refine flatMap_congr_mem origins _ _ fun o ho => ?_
    rw [List.map_map]
    refine map_congr_mem destinations _ _ fun t ht => ?_
    simp only [Function.comp_apply]
    rw [wktLookup_of_mem origins h1 o ho, wktLookup_of_mem destinations h2 t ht]
    by_cases hg : o.geom = t.geom
    · rw [if_pos (by rw [hg]), if_pos hg]
    · rw [if_neg (fun hc => hg (Option.some_inj.mp hc)), if_neg hg]
  · exact flatMap_map_length _ origins destinations

/-- Evaluation of `od_all_pairs_in_order` on a concrete input: two origins
and one destination, the second origin coincident with the destination. -/
theorem od_all_pairs_in_order_witness :
    odCostMatrix (fun i j => some ((i : ℚ) + (j : ℚ)))
        [⟨1, ((0 : ℚ), (0 : ℚ))⟩, ⟨2, ((3 : ℚ), (4 : ℚ))⟩]
        [⟨5, ((3 : ℚ), (4 : ℚ))⟩] false none none
      = Except.ok [⟨1, 5, some 6⟩, ⟨2, 5, some 0⟩] := by
  rw [(od_all_pairs_in_order (fun i j => some ((i : ℚ) + (j : ℚ)))
    [⟨1, ((0 : ℚ), (0 : ℚ))⟩, ⟨2, ((3 : ℚ), (4 : ℚ))⟩]
    [⟨5, ((3 : ℚ), (4 : ℚ))⟩] (by decide) (by decide)).1]
  congr 1
  norm_num [List.flatMap, Prod.ext_iff]

/-- C10 is refuted on this input: a single origin and a single destination
at the same coordinate with an infinite graph distance between their temp
vertices.  The pair is unreachable - the embedded distance is `none` - yet
its row carries cost `some 0`, not a missing cost, because the
zero-forcing of coincident wkts overwrites the `NaN`. -/
theorem od_unreachable_coincident_pair_cost_zero :
    odCostMatrix (fun _ _ => none)
        [⟨1, ((0 : ℚ), (0 : ℚ))⟩] [⟨2, ((0 : ℚ), (0 : ℚ))⟩]
        false none none
      = Except.ok [⟨1, 2, some 0⟩]
    ∧ (fun _ _ => (none : Option ℚ)) 1 2 = none
    ∧ some (0 : ℚ) ≠ none := by
  exact ⟨rfl, rfl, by decide⟩

/-! ## K-routes middle-slice deletion (`_get_route.py` lines 154-192)

After each successful route, `_loop_k_routes` computes
`n_edges_to_keep = int(round((len - len*drop_middle_percent/100)/2))`,
bumps it to 1 if it is 0, and deletes the middle slice
`edge_tuples[n_edges_to_keep:-n_edges_to_keep]` from the working copy of
the graph before the next of the `k` iterations.  Python's `round` to zero
decimals rounds half to even. -/

/-- Python `round(x, 0)`: round half to even (banker's rounding). -/
def bankersRound (q : ℚ) : ℤ :=
  if q - ⌊q⌋ < 1 / 2 then ⌊q⌋
  else if 1 / 2 < q - ⌊q⌋ then ⌊q⌋ + 1
  else if ⌊q⌋ % 2 = 0 then ⌊q⌋ else ⌊q⌋ + 1

/-- `_loop_k_routes` lines 177-184: the keep-per-end count
`int(round((len - len*drop_middle_percent/100)/2))`, set to 1 when 0. -/
def nEdgesToKeep (len : ℕ) (dmp : ℚ) : ℤ :=
  if bankersRound (((len : ℚ) - (len : ℚ) * dmp / 100) / 2) = 0 then 1
  else bankersRound (((len : ℚ) - (len : ℚ) * dmp / 100) / 2)

/-- `_loop_k_routes` lines 186-187: `edge_tuples[n_edges_to_keep:-n_edges_to_keep]`,
the slice of route edges deleted from the working graph copy before the
next iteration. -/
def droppedMiddle {α : Type} (edges : List α) (dmp : ℚ) : List α :=
  (edges.drop (nEdgesToKeep edges.length dmp).toNat).take
    (edges.length - 2 * (nEdgesToKeep edges.length dmp).toNat)

/-- The keep-per-end count asserted by C3:
`(len*drop_middle_percent/100)/2`, rounded, minimum 1. -/
def claimKeepPerEnd (len : ℕ) (dmp : ℚ) : ℤ :=
  if bankersRound (((len : ℚ) * dmp / 100) / 2) = 0 then 1
  else bankersRound (((len : ℚ) * dmp / 100) / 2)

theorem bankersRound_nonneg (q : ℚ) (h : 0 ≤ q) : 0 ≤ bankersRound q := by
  have hf : (0 : ℤ) ≤ ⌊q⌋ := Int.floor_nonneg.mpr h
  unfold bankersRound
  split_ifs <;> omega

/-- C3 is refuted at a route of 10 edges with `drop_middle_percent=20`:
the code keeps 4 edges at each end and deletes the 2 middle edges
(20 percent of the route), while the claim's formula keeps
`(10*20/100)/2 = 1` edge at each end and would delete 8 edges
(80 percent). -/
theorem k_routes_keep_count_mismatch :
    nEdgesToKeep 10 20 = 4
    ∧ claimKeepPerEnd 10 20 = 1
    ∧ droppedMiddle (List.range 10) 20 = [4, 5]
    ∧ droppedMiddle (List.range 10) 20 ≠ ((List.range 10).drop 1).take 8 := by
  have harg : (((10 : ℕ) : ℚ) - ((10 : ℕ) : ℚ) * 20 / 100) / 2 = 4 := by norm_num
  have harg2 : ((((10 : ℕ) : ℚ)) * 20 / 100) / 2 = 1 := by norm_num
  have hbr : bankersRound ((((10 : ℕ) : ℚ) - ((10 : ℕ) : ℚ) * 20 / 100) / 2) = 4 := by
    rw [harg]
    have : ⌊(4 : ℚ)⌋ = 4 := by norm_num
    unfold bankersRound
    rw [this]
    norm_num
  have hbr2 : bankersRound (((((10 : ℕ) : ℚ)) * 20 / 100) / 2) = 1 := by
    rw [harg2]
    have : ⌊(1 : ℚ)⌋ = 1 := by norm_num
    unfold bankersRound
    rw [this]
    norm_num
  have hkeep : nEdgesToKeep 10 20 = 4 := by
    unfold nEdgesToKeep
    rw [show (10 : ℕ) = ((10 : ℕ) : ℕ) from rfl] at hbr ⊢
    rw [hbr]
    norm_num
  have hclaim : claimKeepPerEnd 10 20 = 1 := by
    unfold claimKeepPerEnd
    rw [hbr2]
    norm_num
  have hlen : (List.range 10).length = 10 := by simp
  have hdrop : droppedMiddle (List.range 10) 20 = [4, 5] := by
    unfold droppedMiddle
    rw [hlen, hkeep]
    rfl
  exact ⟨hkeep, hclaim, hdrop, by rw [hdrop]; decide⟩

theorem take_dropped_drop_decomposition {α : Type} (l : List α) (k : ℕ)
    (h : 2 * k ≤ l.length) :
    l = l.take k ++ ((l.drop k).take (l.length - 2 * k)) ++ l.drop (l.length - k) := by
  have h1 : (l.drop k).take (l.length - 2 * k) ++ (l.drop k).drop (l.length - 2 * k)
      = l.drop k := List.take_append_drop _ _
  have h2 : (l.drop k).drop (l.length - 2 * k) = l.drop (l.length - k) := by
    rw [List.drop_drop]
    congr 1
    omega
  have h3 : l.drop k = (l.drop k).take (l.length - 2 * k) ++ l.drop (l.length - k) := by
    rw [← h2]
    exact (List.take_append_drop _ _).symm
  calc l = l.take k ++ l.drop k := (List.take_append_drop _ _).symm
    _ = l.take k ++ ((l.drop k).take (l.length - 2 * k) ++ l.drop (l.length - k)) := by
        rw [← h3]
    _ = l.take k ++ (l.drop k).take (l.length - 2 * k) ++ l.drop (l.length - k) :=
        (List.append_assoc _ _ _).symm

/-- C3 (amended) After each successful route with `len` edges,
`_loop_k_routes` deletes `drop_middle_percent` percent of the route's
edges, centered on its midpoint, from the working copy of the graph:
it keeps `(len*(100-drop_middle_percent)/100)/2` edges at each end
(banker's-rounded, minimum 1 at each end) and deletes the rest.  Formally,
the keep count equals `max 1 (round((len*(100-dmp)/100)/2))`, and whenever
twice the keep count is at most `len` the route decomposes as the kept head,
the deleted middle slice of length `len - 2*keep`, and the kept tail. -/
theorem k_routes_drop_middle_slice {α : Type} (edges : List α) (dmp : ℚ)
    (h1 : 0 < dmp) (h2 : dmp ≤ 100) :
    nEdgesToKeep edges.length dmp
      = max 1 (bankersRound (((edges.length : ℚ) * (100 - dmp) / 100) / 2))
    ∧ (2 * (nEdgesToKeep edges.length dmp).toNat ≤ edges.length →
        edges = edges.take (nEdgesToKeep edges.length dmp).toNat
          ++ droppedMiddle edges dmp
          ++ edges.drop (edges.length - (nEdgesToKeep edges.length dmp).toNat)
        ∧ (droppedMiddle edges dmp).length
          = edges.length - 2 * (nEdgesToKeep edges.length dmp).toNat) := by
  have hargeq : ((edges.length : ℚ) - (edges.length : ℚ) * dmp / 100) / 2
      = ((edges.length : ℚ) * (100 - dmp) / 100) / 2 := by ring
  have hnn : (0 : ℚ) ≤ ((edges.length : ℚ) - (edges.length : ℚ) * dmp / 100) / 2 := by
    have hlen : (0 : ℚ) ≤ (edges.length : ℚ) := Nat.cast_nonneg _
    have : (edges.length : ℚ) * dmp / 100 ≤ (edges.length : ℚ) := by
      rw [div_le_iff₀ (by norm_num)]
      calc (edges.length : ℚ) * dmp ≤ (edges.length : ℚ) * 100 := by
            exact mul_le_mul_of_nonneg_left h2 hlen
        _ = (edges.length : ℚ) * 100 := rfl
    linarith
  have hbr := bankersRound_nonneg _ hnn
  constructor
  · unfold nEdgesToKeep
    rw [← hargeq]
    rcases eq_or_lt_of_le hbr with hz | hpos
    · rw [if_pos hz.symm, ← hz]
      simp
    · have hne : bankersRound (((edges.length : ℚ)
        - (edges.length : ℚ) * dmp / 100) / 2) ≠ 0 := by omega
      rw [if_neg hne]
      exact (max_eq_right (by omega)).symm
  · intro hle
    refine ⟨?_, ?_⟩
    · exact take_dropped_drop_decomposition edges _ hle
    · unfold droppedMiddle
      rw [List.length_take, List.length_drop]
      omega

/-- Evaluation of `k_routes_drop_middle_slice` on a 10-edge route with
`drop_middle_percent=20`. -/
theorem k_routes_drop_middle_slice_witness :
    nEdgesToKeep (List.range 10).length 20
      = max 1 (bankersRound ((((List.range 10).length : ℚ) * (100 - 20) / 100) / 2))
    ∧ (2 * (nEdgesToKeep (List.range 10).length 20).toNat ≤ (List.range 10).length →
        List.range 10 = (List.range 10).take (nEdgesToKeep (List.range 10).length 20).toNat
          ++ droppedMiddle (List.range 10) 20
          ++ (List.range 10).drop ((List.range 10).length
            - (nEdgesToKeep (List.range 10).length 20).toNat)
        ∧ (droppedMiddle (List.range 10) 20).length
          = (List.range 10).length - 2 * (nEdgesToKeep (List.range 10).length 20).toNat) :=
  k_routes_drop_middle_slice (List.range 10) 20 (by norm_num) (by norm_num)

/-! ## Route recovery: dropping connector edges (`_get_route.py`)

The recovered edge path carries the edge id attribute
`source_target_weight`; `_create_line_id_df` drops the ids that end with
`"_0"` (comment in the source: "remove edges from ori/des to the roads")
before joining ids back to line geometries.  Edge ids are embedded as
character lists. -/

/-- An edge of a recovered path: graph source and target vertex ids and
the edge weight. -/
structure PathEdge where
  source : ℕ
  target : ℕ
  weight : ℚ
deriving DecidableEq, Repr

/-- The character of a decimal digit. -/
def digitChar (d : ℕ) : Char :=
  Char.ofNat (48 + d)

/-- Decimal digits of a natural number, most significant first;
fuel-structured so that it reduces in the kernel. -/
def natDigitsAux : ℕ → ℕ → List Char
  | 0, _ => []
  | fuel + 1, n =>
    if n < 10 then [digitChar n]
    else natDigitsAux fuel (n / 10) ++ [digitChar (n % 10)]

/-- Decimal digits of a natural number. -/
def natDigits (n : ℕ) : List Char :=
  natDigitsAux (n + 1) n

/-- Decimal rendering of an integer. -/
def intChars (n : ℤ) : List Char :=
  if n < 0 then '-' :: natDigits n.natAbs else natDigits n.natAbs

/-- Decimal rendering of a rational weight: integer-valued weights render
as plain integers (so weight 0 renders as `"0"`); non-integer weights
render as `num/den`.  Only whether the rendering is exactly `"0"` matters
to the `"_0"` filter below, and no rendering contains an underscore. -/
def ratChars (q : ℚ) : List Char :=
  if q.den = 1 then intChars q.num else intChars q.num ++ '/' :: natDigits q.den

/-- Modelled from the spec: the edge id `"{src}_{tgt}_{weight}"` (spec
section 3); the code that attaches the `source_target_weight` attribute to
the graph edges is not under `src/`. -/
def sourceTargetWeight (e : PathEdge) : List Char :=
  natDigits e.source ++ '_' :: natDigits e.target ++ '_' :: ratChars e.weight

/-- `_create_line_id_df` (`_get_route.py` lines 142-151):
`line_ids.loc[~line_ids.index.str.endswith("_0")]` - keep exactly the path
edges whose id does not end with `"_0"`. -/
def createLineIdDf (path : List PathEdge) : List PathEdge :=
  path.filter fun e => ! (List.isSuffixOf ['_', '0'] (sourceTargetWeight e))

/-- A connector edge in the sense of C4: an edge with an endpoint in the
temporary node-id range, which starts at `tempStart` (temp indices are
allocated above the maximum network node id). -/
def isConnector (tempStart : ℕ) (e : PathEdge) : Bool :=
  decide (tempStart ≤ e.source) || decide (tempStart ≤ e.target)

theorem digitChar_toNat (d : ℕ) (h : d < 10) : (digitChar d).toNat = 48 + d := by
  interval_cases d <;> decide

theorem digitChar_eq_zero_iff (d : ℕ) (h : d < 10) : digitChar d = '0' ↔ d = 0 := by
  interval_cases d <;> simp [digitChar] <;> decide

theorem natDigitsAux_spec (fuel : ℕ) :
    ∀ n, n < fuel →
      natDigitsAux fuel n ≠ []
      ∧ (∀ c ∈ natDigitsAux fuel n, 48 ≤ c.toNat ∧ c.toNat ≤ 57)
      ∧ (natDigitsAux fuel n = ['0'] ↔ n = 0) := by
  induction fuel with
  | zero => intro n hn; omega
  | succ fuel ih =>
    intro n _
    by_cases h10 : n < 10
    · unfold natDigitsAux
      rw [if_pos h10]
      refine ⟨by simp, ?_, ?_⟩
      · intro c hc
        rw [List.mem_singleton] at hc
        rw [hc, digitChar_toNat n h10]
        omega
      · rw [List.cons.injEq]
        simp only [and_true]
        exact digitChar_eq_zero_iff n h10
    · have hrec : n / 10 < fuel := by
        have hlt : n / 10 < n := Nat.div_lt_self (by omega) (by norm_num)
        have hle : n / 10 + 1 ≤ n / 10 * 10 := by omega
        have := Nat.div_mul_le_self n 10
        omega
      obtain ⟨hne, hchars, _⟩ := ih (n / 10) hrec
      unfold natDigitsAux
      rw [if_neg h10]
      refine ⟨by simp, ?_, ?_⟩
      · intro c hc
        rcases List.mem_append.mp hc with hmem | hmem
        · exact hchars c hmem
        · rw [List.mem_singleton] at hmem
          rw [hmem, digitChar_toNat _ (Nat.mod_lt n (by norm_num))]
          have := Nat.mod_lt n (show 0 < 10 by norm_num)
          omega
      · constructor
        · intro heq
          have := congrArg List.length heq
          simp only [List.length_append, List.length_singleton] at this
          exact absurd (List.length_eq_zero.mp (by omega)) hne
        · intro h0
          omega

theorem natDigits_ne_nil (n : ℕ) : natDigits n ≠ [] :=
  (natDigitsAux_spec (n + 1) n (Nat.lt_succ_self n)).1

theorem natDigits_chars (n : ℕ) :
    ∀ c ∈ natDigits n, 48 ≤ c.toNat ∧ c.toNat ≤ 57 :=
  (natDigitsAux_spec (n + 1) n (Nat.lt_succ_self n)).2.1

theorem natDigits_eq_zero_iff (n : ℕ) : natDigits n = ['0'] ↔ n = 0 :=
  (natDigitsAux_spec (n + 1) n (Nat.lt_succ_self n)).2.2

theorem underscore_not_mem_natDigits (n : ℕ) : '_' ∉ natDigits n := by
  intro hmem
  have := natDigits_chars n '_' hmem
  revert this
  decide

theorem intChars_eq_zero_iff (n : ℤ) : intChars n = ['0'] ↔ n = 0 := by
  unfold intChars
  by_cases hneg : n < 0
  · rw [if_pos hneg]
    constructor
    · intro h
      have := List.head_eq_of_cons_eq h
      exact absurd this (by decide)
    · intro h; omega
  · rw [if_neg hneg]
    rw [natDigits_eq_zero_iff]
    omega

theorem underscore_not_mem_intChars (n : ℤ) : '_' ∉ intChars n := by
  unfold intChars
  split_ifs
  · intro hmem
    rcases List.mem_cons.mp hmem with h | h
    · exact absurd h (by decide)
    · exact underscore_not_mem_natDigits _ h
  · exact underscore_not_mem_natDigits _

theorem ratChars_ne_nil (q : ℚ) : ratChars q ≠ [] := by
  unfold ratChars intChars
  split_ifs <;> simp [natDigits_ne_nil]

theorem underscore_not_mem_ratChars (q : ℚ) : '_' ∉ ratChars q := by
  unfold ratChars
  split_ifs
  · exact underscore_not_mem_intChars _
  · intro hmem
    rcases List.mem_append.mp hmem with h | h
    · exact underscore_not_mem_intChars _ h
    · rcases List.mem_cons.mp h with h2 | h2
      · exact absurd h2 (by decide)
      · exact underscore_not_mem_natDigits _ h2

theorem ratChars_eq_zero_iff (q : ℚ) : ratChars q = ['0'] ↔ q = 0 := by
  unfold ratChars
  by_cases hden : q.den = 1
  · rw [if_pos hden, intChars_eq_zero_iff, Rat.num_eq_zero]
  · rw [if_neg hden]
    constructor
    · intro h
      exfalso
      have hlen := congrArg List.length h
      simp only [List.length_append, List.length_cons, List.length_nil,
        List.length_singleton] at hlen
      have hnd : (natDigits q.den).length ≠ 0 := by
        simpa [List.length_eq_zero] using natDigits_ne_nil q.den
      omega
    · intro h
      rw [h] at hden
      exact absurd rfl hden

theorem suffix_underscore_zero_iff (A R : List Char) (hne : R ≠ [])
    (hnu : '_' ∉ R) : ['_', '0'] <:+ A ++ '_' :: R ↔ R = ['0'] := by
  constructor
  · rintro ⟨t, ht⟩
    have hrev := congrArg List.reverse ht
    simp only [List.reverse_append, List.reverse_cons] at hrev
    cases hR : R.reverse with
    | nil => exact absurd (List.reverse_eq_nil_iff.mp hR) hne
    | cons c rest =>
      rw [hR] at hrev
      simp only [List.cons_append, List.append_assoc] at hrev
      have hc : c = '0' := by
        have := congrArg (fun l => l.head?) hrev
        simpa using this.symm
      have htail : '_' :: t.reverse = rest ++ '_' :: A.reverse := by
        have h' := congrArg (fun l => l.tail) hrev
        simp at h'
        first
        | exact h'
        | exact h'.symm
      cases rest with
      | nil =>
        have : R.reverse = ['0'] := by rw [hR, hc]
        have := congrArg List.reverse this
        simpa using this
      | cons c2 rest2 =>
        exfalso
        have hc2 : c2 = '_' := by
          have h' := congrArg (fun l => l.head?) htail
          simp at h'
          first
          | exact h'
          | exact h'.symm
        have : c2 ∈ R := by
          have : c2 ∈ R.reverse := by rw [hR]; simp
          exact List.mem_reverse.mp this
        rw [hc2] at this
        exact hnu this
  · intro h
    rw [h]
    exact ⟨A, by simp⟩

theorem edge_id_ends_underscore_zero_iff (e : PathEdge) :
    List.isSuffixOf ['_', '0'] (sourceTargetWeight e) = true ↔ e.weight = 0 := by
  rw [List.isSuffixOf_iff_suffix]
  have hassoc : sourceTargetWeight e
      = (natDigits e.source ++ '_' :: natDigits e.target) ++ '_' :: ratChars e.weight := by
    unfold sourceTargetWeight
    simp [List.append_assoc]
  rw [hassoc,
    suffix_underscore_zero_iff _ _ (ratChars_ne_nil _) (underscore_not_mem_ratChars _),
    ratChars_eq_zero_iff]

/-- C4 is refuted on this input: a path consisting of one network edge
(both endpoints `0` and `1` are below the temporary id range starting at
`5`, so it is not a connector edge) whose weight is 0, a value that weight
validation allows.  Its id ends with `"_0"`, so `_create_line_id_df`
removes it from the path although the claim says every network edge of the
path is kept. -/
theorem route_filter_drops_zero_weight_network_edge :
    createLineIdDf [⟨0, 1, 0⟩] = []
    ∧ isConnector 5 ⟨0, 1, 0⟩ = false
    ∧ (⟨0, 1, 0⟩ : PathEdge) ∈ [(⟨0, 1, 0⟩ : PathEdge)] := by
  refine ⟨by decide, by decide, by decide⟩

/-- C4 (amended) `_create_line_id_df` removes from the recovered path
exactly the edges whose id ends with `"_0"`, that is, whose weight renders
as 0.  This coincides with removing exactly the connector edges when every
connector edge of the path has weight 0 (the default zero node-weight
rule) and every network edge of the path has nonzero weight; a zero-weight
network edge is removed as well, and a connector edge with nonzero weight
is kept. -/
theorem route_filter_law (path : List PathEdge) (tempStart : ℕ)
    (hconn : ∀ e ∈ path, isConnector tempStart e = true → e.weight = 0)
    (hnet : ∀ e ∈ path, isConnector tempStart e = false → e.weight ≠ 0) :
    createLineIdDf path = path.filter (fun e => decide (e.weight ≠ 0))
    ∧ createLineIdDf path = path.filter (fun e => ! isConnector tempStart e) := by
  have hgen : createLineIdDf path = path.filter (fun e => decide (e.weight ≠ 0)) := by
    unfold createLineIdDf
    refine List.filter_congr ?_
    intro e _
    by_cases hw : e.weight = 0
    · have := (edge_id_ends_underscore_zero_iff e).mpr hw
      rw [this]
      simp [hw]
    · have : List.isSuffixOf ['_', '0'] (sourceTargetWeight e) = false := by
        rw [Bool.eq_false_iff]
        intro hc
        exact hw ((edge_id_ends_underscore_zero_iff e).mp hc)
      rw [this]
      simp [hw]
  refine ⟨hgen, ?_⟩
  rw [hgen]
  refine List.filter_congr ?_
  intro e he
  cases hic : isConnector tempStart e with
  | true => simp [hconn e he hic]
  | false => simp [hnet e he hic]

/-- Evaluation of `route_filter_law` on a concrete path: one positive-weight
network edge and one zero-weight connector edge; only the network edge
survives the filter. -/
theorem route_filter_law_witness :
    createLineIdDf [⟨0, 1, 3⟩, ⟨7, 1, 0⟩]
      = [(⟨0, 1, 3⟩ : PathEdge)].filter (fun e => decide (e.weight ≠ 0)) ++ []
    ∧ createLineIdDf [⟨0, 1, 3⟩, ⟨7, 1, 0⟩]
      = [⟨0, 1, 3⟩, ⟨7, 1, 0⟩].filter (fun e => ! isConnector 5 e) := by
  have h := route_filter_law [⟨0, 1, 3⟩, ⟨7, 1, 0⟩] 5 (by decide) (by decide)
  refine ⟨?_, h.2⟩
  rw [h.1]
  decide

/-! ## Hole closing (`closing_network_holes.py`)

`_close_holes_all_lines` walks the k-nearest-neighbor columns of the
dead-end nodes, accepts candidates by a distance-and-angle test, and
greedily pairs them - a dead-end that is already a source of a new line is
not given a second one.  `_find_holes_deadends` connects every dead-end to
its nearest other dead-end within `max_distance`.  The node tables built
by `make_node_ids` (`nodes.py`) and the k-nearest-neighbors index
(`neighbors.py`) are not under `src/` and are modelled from the spec where
needed.  Distances are embedded by their squares, with bridging lemmas to
`Real.sqrt`, to keep the embedding computable. -/

/-- Squared Euclidean distance between two points. -/
def sqDist (p q : Point) : ℚ :=
  (q.1 - p.1) ^ 2 + (q.2 - p.2) ^ 2

/-- The comparison `dist < maxDistance` of `_find_holes_deadends` line 386,
stated on the squared distance; `distLt_iff_sqrt` shows it agrees with the
Euclidean comparison. -/
def distLt (s d : ℚ) : Bool :=
  decide (0 < d) && decide (s < d ^ 2)

theorem distLt_iff_sqrt (s d : ℚ) :
    distLt s d = true ↔ Real.sqrt ((s : ℚ) : ℝ) < ((d : ℚ) : ℝ) := by
  unfold distLt
  simp only [Bool.and_eq_true, decide_eq_true_eq]
  constructor
  · rintro ⟨hd, hs⟩
    rw [Real.sqrt_lt' (by exact_mod_cast hd)]
    exact_mod_cast hs
  · intro h
    have hd : (0 : ℝ) < (d : ℝ) := lt_of_le_of_lt (Real.sqrt_nonneg _) h
    refine ⟨by exact_mod_cast hd, ?_⟩
    rw [Real.sqrt_lt' hd] at h
    exact_mod_cast h

/-- One dead-end row of `_close_holes_all_lines` (lines 266-283): the
dead-end endpoint (`wkt`) and the other endpoint of its line
(`wkt_other_end`). -/
structure DeadEnd where
  wkt : Point
  otherEnd : Point
deriving DecidableEq, Repr

/-- One neighbor column of `_close_holes_all_lines` (lines 300-336): the
rows of `zip(deadends, col)` that pass the acceptance test `cond` and
whose dead-end is not yet a source (`if f not in new_sources`, checked
against the sources accumulated in previous columns) become new
(source, target) pairs.  The concrete acceptance test - distance, angle
and other-end masking - is the `cond` parameter. -/
def processColumn (cond : DeadEnd → Point → Bool) (ds : List DeadEnd)
    (col : List Point) (sources : List Point) : List (Point × Point) :=
  (List.zip ds col).filterMap fun dq =>
    if cond dq.1 dq.2 && ! decide (dq.1.wkt ∈ sources) then
      some (dq.1.wkt, dq.2)
    else none

/-- The neighbor-column loop of `_close_holes_all_lines` (lines 296-340):
skip a column entirely equal to the rows' other ends (the `continue` of
line 306), stop as soon as a column adds no new source (the `break` of
lines 338-340), otherwise append the new pairs and record their
sources. -/
def closeHolesLoop (cond : DeadEnd → Point → Bool) (ds : List DeadEnd) :
    List (List Point) → List Point → List (Point × Point) → List (Point × Point)
  | [], _, acc => acc
  | col :: rest, sources, acc =>
    if (List.zip ds col).all (fun dq => dq.2 == dq.1.otherEnd) then
      closeHolesLoop cond ds rest sources acc
    else
      let new := processColumn cond ds col sources
      if new = [] then acc
      else closeHolesLoop cond ds rest (sources ++ new.map (·.1)) (acc ++ new)

/-- Lexicographic comparison on (squared distance, index) pairs: strictly
smaller distance, or equal distance and smaller index. -/
def lexBetter (a b : ℚ × ℕ) : Bool :=
  decide (a.1 < b.1) || (decide (a.1 = b.1) && decide (a.2 < b.2))

/-- The (squared distance, index)-lexicographic minimum of a candidate
list. -/
def argminLex : List (ℚ × ℕ) → Option (ℚ × ℕ)
  | [] => none
  | x :: xs =>
    match argminLex xs with
    | none => some x
    | some m => if lexBetter m x then some m else some x

/-- The (squared distance, index) candidates of query point `i` against the
whole point list. -/
def candidateList (pts : List Point) (i : ℕ) : List (ℚ × ℕ) :=
  (List.range pts.length).map fun j =>
    (sqDist (pts.getD i ((0 : ℚ), (0 : ℚ))) (pts.getD j ((0 : ℚ), (0 : ℚ))), j)

/-- Modelled from the spec: column 1 of `k_nearest_neighbors(deadends,
deadends, k=2)` (spec section 6; `neighbors.py` is not under `src/`): the
candidate with the second-smallest (distance, index) pair - the smallest
after removing the overall nearest, which for distinct points is the query
point itself at distance 0. -/
def secondNearest (pts : List Point) (i : ℕ) : Option (ℚ × ℕ) :=
  match argminLex (candidateList pts i) with
  | none => none
  | some m => argminLex ((candidateList pts i).filter fun x => x.2 != m.2)

/-- `_find_holes_deadends` (`closing_network_holes.py` lines 348-395):
select the nodes with `n == 1` (dead-ends), and for each of them draw a
straight line to its nearest other dead-end when the distance is below
`max_distance`.  Nodes are (point, occurrence count) pairs; the result is
the list of (from, to) endpoint pairs of the new lines. -/
def findHolesDeadends (nodes : List (Point × ℕ)) (maxDistance : ℚ) :
    List (Point × Point) :=
  let deadends := (nodes.filter fun n => n.2 == 1).map (·.1)
  if deadends.length ≤ 1 then []
  else
    (List.range deadends.length).filterMap fun i =>
      match secondNearest deadends i with
      | none => none
      | some sj =>
        if distLt sj.1 maxDistance then
          some (deadends.getD i ((0 : ℚ), (0 : ℚ)), deadends.getD sj.2 ((0 : ℚ), (0 : ℚ)))
        else none

theorem processColumn_fst_sublist (cond : DeadEnd → Point → Bool)
    (ds : List DeadEnd) (col : List Point) (sources : List Point) :
    ((processColumn cond ds col sources).map (·.1)).Sublist (ds.map (·.wkt)) := by
  induction ds generalizing col with
  | nil => simp [processColumn]
  | cons d rest ih =>
    cases col with
    | nil => simp [processColumn]
    | cons c cs =>
      unfold processColumn
      rw [List.zip_cons_cons, List.filterMap_cons]
      cases hc : (if cond d c && ! decide (d.wkt ∈ sources) then
          some (d.wkt, c) else none) with
      | none =>
        exact List.Sublist.cons _ (ih cs)
      | some pq =>
        have hpq : pq = (d.wkt, c) := by
          by_cases hcond : (cond d c && ! decide (d.wkt ∈ sources)) = true
          · rw [if_pos hcond] at hc
            exact (Option.some_inj.mp hc).symm
          · rw [if_neg hcond] at hc
            exact Option.noConfusion hc
        rw [List.map_cons, hpq]
        exact List.Sublist.cons₂ _ (ih cs)

theorem processColumn_fst_not_mem (cond : DeadEnd → Point → Bool)
    (ds : List DeadEnd) (col : List Point) (sources : List Point) :
    ∀ a ∈ (processColumn cond ds col sources).map (·.1), a ∉ sources := by
  intro a ha
  obtain ⟨pq, hpq, rfl⟩ := List.mem_map.mp ha
  obtain ⟨dq, _, hdq⟩ := List.mem_filterMap.mp hpq
  by_cases hcond : (cond dq.1 dq.2 && ! decide (dq.1.wkt ∈ sources)) = true
  · rw [if_pos hcond] at hdq
    have hfst : pq.1 = dq.1.wkt := by
      have h' := Option.some_inj.mp hdq
      rw [← h']
    rw [hfst]
    have := (Bool.and_eq_true _ _).mp hcond
    simpa using this.2
  · rw [if_neg hcond] at hdq
    exact Option.noConfusion hdq

theorem closeHolesLoop_sources_nodup (cond : DeadEnd → Point → Bool)
    (ds : List DeadEnd) (hds : (ds.map (·.wkt)).Nodup) :
    ∀ (cols : List (List Point)) (sources : List Point) (acc : List (Point × Point)),
      sources.Nodup → acc.map (·.1) = sources →
      ((closeHolesLoop cond ds cols sources acc).map (·.1)).Nodup := by
  intro cols
  induction cols with
  | nil =>
    intro sources acc hs hacc
    unfold closeHolesLoop
    rw [hacc]
    exact hs
  | cons col rest ih =>
    intro sources acc hs hacc
    unfold closeHolesLoop
    by_cases hall : ((List.zip ds col).all fun dq => dq.2 == dq.1.otherEnd) = true
    · rw [if_pos hall]
      exact ih sources acc hs hacc
    · rw [if_neg hall]
      simp only []
      by_cases hnew : processColumn cond ds col sources = []
      · rw [if_pos hnew, hacc]
        exact hs
      · rw [if_neg hnew]
        have hsub := processColumn_fst_sublist cond ds col sources
        have hnm := processColumn_fst_not_mem cond ds col sources
        have hnodup2 : (sources ++ (processColumn cond ds col sources).map (·.1)).Nodup := by
          rw [List.nodup_append]
          exact ⟨hs, hsub.nodup hds, fun a hmem => fun hmem2 => hnm a hmem2 hmem⟩
        refine ih _ _ hnodup2 ?_
        rw [List.map_append, hacc]

theorem filterMap_sublist_map {α β : Type} (l : List α) (f : α → Option β)
    (g : α → β) (h : ∀ a ∈ l, ∀ b, f a = some b → b = g a) :
    (l.filterMap f).Sublist (l.map g) := by
  induction l with
  | nil => simp
  | cons a as ih =>
    rw [List.filterMap_cons, List.map_cons]
    cases hfa : f a with
    | none => exact List.Sublist.cons _ (ih fun x hx => h x (by simp [hx]))
    | some b =>
      rw [h a (by simp) b hfa]
      exact List.Sublist.cons₂ _ (ih fun x hx => h x (by simp [hx]))

theorem findHoles_entry_source (dl : List Point) (maxDistance : ℚ) (i : ℕ)
    (b : Point) :
    (Option.map (fun x => x.1)
        (match secondNearest dl i with
          | none => none
          | some sj =>
            if distLt sj.1 maxDistance then
              some (dl.getD i ((0 : ℚ), (0 : ℚ)), dl.getD sj.2 ((0 : ℚ), (0 : ℚ)))
            else none)) = some b →
    b = dl.getD i ((0 : ℚ), (0 : ℚ)) := by
  cases secondNearest dl i with
  | none => intro h; exact Option.noConfusion h
  | some sj =>
    intro h
    dsimp only at h
    by_cases hdist : distLt sj.1 maxDistance = true
    · rw [if_pos hdist] at h
      simp only [Option.map_some'] at h
      exact (Option.some_inj.mp h).symm
    · rw [if_neg hdist] at h
      exact Option.noConfusion h

theorem findHolesDeadends_sources_nodup (nodes : List (Point × ℕ))
    (maxDistance : ℚ) (hnodes : (nodes.map (·.1)).Nodup) :
    ((findHolesDeadends nodes maxDistance).map (·.1)).Nodup := by
  have hdead : ((nodes.filter fun n => n.2 == 1).map (·.1)).Nodup :=
    ((List.filter_sublist nodes).map (fun x => x.1)).nodup hnodes
  unfold findHolesDeadends
  by_cases hlen : ((nodes.filter fun n => n.2 == 1).map (·.1)).length ≤ 1
  · rw [if_pos hlen]
    exact List.nodup_nil
  · rw [if_neg hlen]
    set dl := (nodes.filter fun n => n.2 == 1).map (·.1) with hdl
    rw [List.map_filterMap]
    refine List.Sublist.nodup
      (filterMap_sublist_map _ _ (fun i => dl.getD i ((0 : ℚ), (0 : ℚ))) ?_) ?_
    · intro i _ b hb
      exact findHoles_entry_source dl maxDistance i b hb
    · refine (List.nodup_map_iff_inj_on (List.nodup_range _)).mpr ?_
      intro i hi j hj he
      rw [List.mem_range] at hi hj
      rw [List.getD_eq_getElem dl _ hi, List.getD_eq_getElem dl _ hj] at he
      have hinj := List.nodup_iff_injective_get.mp hdead
      have hfin : (⟨i, hi⟩ : Fin dl.length) = ⟨j, hj⟩ := by
        apply hinj
        rw [List.get_eq_getElem, List.get_eq_getElem]
        exact he
      exact congrArg Fin.val hfin

/-- C5 (amended) Hole closing creates at most one synthetic edge with any
given dead-end node as source, in both variants: the sources of the lines
emitted by the neighbor-column loop of `_close_holes_all_lines` are
pairwise distinct (for every acceptance test and every neighbor-column
data), and so are the sources of the `_find_holes_deadends` lines, as long
as the dead-end nodes are distinct.  The no-double-closure half of the
original claim is false: between two dead-ends one edge in each direction
may be created (see the counterexample). -/
theorem hole_closing_at_most_one_per_source
    (cond : DeadEnd → Point → Bool) (ds : List DeadEnd) (cols : List (List Point))
    (hds : (ds.map (·.wkt)).Nodup)
    (nodes : List (Point × ℕ)) (maxDistance : ℚ)
    (hnodes : (nodes.map (·.1)).Nodup) :
    ((closeHolesLoop cond ds cols [] []).map (·.1)).Nodup
    ∧ ((findHolesDeadends nodes maxDistance).map (·.1)).Nodup :=
  ⟨closeHolesLoop_sources_nodup cond ds hds cols [] [] List.nodup_nil rfl,
    findHolesDeadends_sources_nodup nodes maxDistance hnodes⟩

/-- Evaluation of `hole_closing_at_most_one_per_source` on concrete data:
one dead-end line and a two-dead-end node table. -/
theorem hole_closing_at_most_one_per_source_witness :
    ((closeHolesLoop (fun _ _ => true)
        [⟨((0 : ℚ), (0 : ℚ)), ((1 : ℚ), (0 : ℚ))⟩]
        [[((5 : ℚ), (5 : ℚ))]] [] []).map (·.1)).Nodup
    ∧ ((findHolesDeadends [(((0 : ℚ), (0 : ℚ)), 1), (((1 : ℚ), (0 : ℚ)), 1)]
        (3 / 2)).map (·.1)).Nodup :=
  hole_closing_at_most_one_per_source (fun _ _ => true)
    [⟨((0 : ℚ), (0 : ℚ)), ((1 : ℚ), (0 : ℚ))⟩] [[((5 : ℚ), (5 : ℚ))]] (by decide)
    [(((0 : ℚ), (0 : ℚ)), 1), (((1 : ℚ), (0 : ℚ)), 1)] (3 / 2) (by decide)

/-- C5 is refuted on this input: a single line whose two endpoints
`(0,0)` and `(1,0)` are both dead-ends (a two-node table with `n = 1`
each), with `max_distance = 3/2`.  `_find_holes_deadends` connects each
dead-end to its nearest other dead-end, producing a line `(0,0) → (1,0)`
and a line `(1,0) → (0,0)`: two synthetic edges between the same two
dead-ends, against the claim that no double closure is created. -/
theorem deadend_double_closure :
    findHolesDeadends [(((0 : ℚ), (0 : ℚ)), 1), (((1 : ℚ), (0 : ℚ)), 1)] (3 / 2)
      = [(((0 : ℚ), (0 : ℚ)), ((1 : ℚ), (0 : ℚ))),
         (((1 : ℚ), (0 : ℚ)), ((0 : ℚ), (0 : ℚ)))]
    ∧ (((0 : ℚ), (0 : ℚ)) : Point) ≠ ((1 : ℚ), (0 : ℚ)) := by
  have e1 : sqDist ((0 : ℚ), (0 : ℚ)) ((0 : ℚ), (0 : ℚ)) = 0 := by
    norm_num [sqDist]
  have e2 : sqDist ((0 : ℚ), (0 : ℚ)) ((1 : ℚ), (0 : ℚ)) = 1 := by
    norm_num [sqDist]
  have e3 : sqDist ((1 : ℚ), (0 : ℚ)) ((0 : ℚ), (0 : ℚ)) = 1 := by
    norm_num [sqDist]
  have e4 : sqDist ((1 : ℚ), (0 : ℚ)) ((1 : ℚ), (0 : ℚ)) = 0 := by
    norm_num [sqDist]
  have hc0 : candidateList [((0 : ℚ), (0 : ℚ)), ((1 : ℚ), (0 : ℚ))] 0
      = [(0, 0), (1, 1)] := by
    show [(sqDist ((0 : ℚ), (0 : ℚ)) ((0 : ℚ), (0 : ℚ)), 0),
      (sqDist ((0 : ℚ), (0 : ℚ)) ((1 : ℚ), (0 : ℚ)), 1)] = [(0, 0), (1, 1)]
    rw [e1, e2]
  have hc1 : candidateList [((0 : ℚ), (0 : ℚ)), ((1 : ℚ), (0 : ℚ))] 1
      = [(1, 0), (0, 1)] := by
    show [(sqDist ((1 : ℚ), (0 : ℚ)) ((0 : ℚ), (0 : ℚ)), 0),
      (sqDist ((1 : ℚ), (0 : ℚ)) ((1 : ℚ), (0 : ℚ)), 1)] = [(1, 0), (0, 1)]
    rw [e3, e4]
  have hsn0 : secondNearest [((0 : ℚ), (0 : ℚ)), ((1 : ℚ), (0 : ℚ))] 0
      = some (1, 1) := by
    unfold secondNearest
    rw [hc0]
    rfl
  have hsn1 : secondNearest [((0 : ℚ), (0 : ℚ)), ((1 : ℚ), (0 : ℚ))] 1
      = some (1, 0) := by
    unfold secondNearest
    rw [hc1]
    rfl
  have hdlt : distLt 1 (3 / 2) = true := by
    unfold distLt
    simp only [Bool.and_eq_true, decide_eq_true_eq]
    norm_num
  constructor
  · have hexp : findHolesDeadends
        [(((0 : ℚ), (0 : ℚ)), 1), (((1 : ℚ), (0 : ℚ)), 1)] (3 / 2)
        = (List.range 2).filterMap (fun i =>
            match secondNearest [((0 : ℚ), (0 : ℚ)), ((1 : ℚ), (0 : ℚ))] i with
            | none => none
            | some sj =>
              if distLt sj.1 (3 / 2) then
                some ([((0 : ℚ), (0 : ℚ)), ((1 : ℚ), (0 : ℚ))].getD i ((0 : ℚ), (0 : ℚ)),
                  [((0 : ℚ), (0 : ℚ)), ((1 : ℚ), (0 : ℚ))].getD sj.2 ((0 : ℚ), (0 : ℚ)))
              else none) := rfl
    rw [hexp, show List.range 2 = [0, 1] from rfl]
    rw [List.filterMap_cons, List.filterMap_cons, List.filterMap_nil, hsn0, hsn1]
    dsimp only
    rw [hdlt]
    rfl
  · decide

/-! ## The angle criterion of hole closing (`closing_network_holes.py`)

`_close_holes_all_lines` accepts a neighbor `q` of a dead-end `p` (lines
309-323) when `dist(p,q) <= max_distance` and
`abs(abs(angle(p_other→p)) - abs(angle(p→q))) <= max_angle`, where
`get_angle` is `np.degrees(np.arctan2(dx, dy))`; a row whose neighbor is
`p_other` itself gets a `NaN` difference and is rejected. -/

/-- `np.arctan2(y, x)`: the angle of the point `(x, y)` in `(-π, π]`, by
the standard piecewise definition. -/
noncomputable def arctan2 (y x : ℝ) : ℝ :=
  if 0 < x then Real.arctan (y / x)
  else if x < 0 then
    (if 0 ≤ y then Real.arctan (y / x) + Real.pi else Real.arctan (y / x) - Real.pi)
  else
    (if 0 < y then Real.pi / 2 else if y < 0 then -(Real.pi / 2) else 0)

/-- `get_angle` (`closing_network_holes.py` lines 177-183):
`np.degrees(np.arctan2(dx, dy))` - note that `dx` is passed as the first
(`y`-like) argument and `dy` as the second. -/
noncomputable def getAngle (a b : Point) : ℝ :=
  arctan2 (((b.1 - a.1 : ℚ) : ℝ)) (((b.2 - a.2 : ℚ) : ℝ)) * 180 / Real.pi

/-- Lines 315-317: the angle difference computed by the code,
`np.abs(np.abs(angle(p_other→p)) - np.abs(angle(p→q)))`. -/
noncomputable def codeAngleDiff (d : DeadEnd) (q : Point) : ℝ :=
  |(|getAngle d.otherEnd d.wkt|) - (|getAngle d.wkt q|)|

/-- Lines 306-323: candidate `q` of dead-end `d` is accepted iff `q` is
not the other end of the dead-end line (such rows get a `NaN` angle
difference, and a `NaN` comparison is `False`), the Euclidean distance is
within `max_distance`, and the code's angle difference is within
`max_angle`. -/
def acceptsCandidate (maxDistance maxAngle : ℚ) (d : DeadEnd) (q : Point) : Prop :=
  q ≠ d.otherEnd
  ∧ Real.sqrt ((sqDist d.wkt q : ℚ) : ℝ) ≤ ((maxDistance : ℚ) : ℝ)
  ∧ codeAngleDiff d q ≤ ((maxAngle : ℚ) : ℝ)

/-- The angular difference asserted by C6: the absolute difference of the
two bearings modulo orientation, i.e. their circular distance in
degrees. -/
noncomputable def orientationDiff (a b : ℝ) : ℝ :=
  min |a - b| (360 - |a - b|)

/-- The rejection predicate asserted by C6: the outgoing bearing
`angle(p→q)` differs from the incoming bearing `angle(p_other→p)` by more
than `max_angle` modulo orientation. -/
def claimRejects (maxAngle : ℚ) (d : DeadEnd) (q : Point) : Prop :=
  orientationDiff (getAngle d.wkt q) (getAngle d.otherEnd d.wkt)
    > ((maxAngle : ℚ) : ℝ)

theorem arctan2_zero_neg (y : ℝ) (hy : y < 0) : arctan2 y 0 = -(Real.pi / 2) := by
  unfold arctan2
  rw [if_neg (lt_irrefl 0), if_neg (lt_irrefl 0), if_neg (not_lt.mpr hy.le),
    if_pos hy]

theorem arctan2_zero_pos (y : ℝ) (hy : 0 < y) : arctan2 y 0 = Real.pi / 2 := by
  unfold arctan2
  rw [if_neg (lt_irrefl 0), if_neg (lt_irrefl 0), if_pos hy]

theorem getAngle_west : getAngle ((1 : ℚ), (0 : ℚ)) ((0 : ℚ), (0 : ℚ)) = -90 := by
  have hda : getAngle ((1 : ℚ), (0 : ℚ)) ((0 : ℚ), (0 : ℚ))
      = arctan2 (-1) 0 * 180 / Real.pi := by
    unfold getAngle
    norm_num
  rw [hda, arctan2_zero_neg _ (by norm_num)]
  rw [div_eq_iff Real.pi_ne_zero]
  ring

theorem getAngle_east : getAngle ((0 : ℚ), (0 : ℚ)) ((2 : ℚ), (0 : ℚ)) = 90 := by
  have hda : getAngle ((0 : ℚ), (0 : ℚ)) ((2 : ℚ), (0 : ℚ))
      = arctan2 2 0 * 180 / Real.pi := by
    unfold getAngle
    norm_num
  rw [hda, arctan2_zero_pos _ (by norm_num)]
  rw [div_eq_iff Real.pi_ne_zero]
  ring

theorem sqrt_sqDist_horizontal :
    Real.sqrt ((sqDist ((0 : ℚ), (0 : ℚ)) ((2 : ℚ), (0 : ℚ)) : ℚ) : ℝ) = 2 := by
  rw [show ((sqDist ((0 : ℚ), (0 : ℚ)) ((2 : ℚ), (0 : ℚ)) : ℚ) : ℝ) = 4 by
    norm_num [sqDist]]
  rw [show (4 : ℝ) = 2 ^ 2 by norm_num]
  exact Real.sqrt_sq (by norm_num)

/-- C6 is refuted on this input: the dead-end `p = (0,0)` terminates the
line coming from `p_other = (1,0)`, so the incoming bearing is -90 (west
in the code's `atan2(dx, dy)` convention); the neighbor `q = (2,0)` lies
at distance 2 on the opposite side, with outgoing bearing +90.  The
orientation-modulo difference of the two bearings is 180, so with
`max_angle = 30` the claim says `q` must be rejected - but the code
compares `abs(abs(-90) - abs(90)) = 0 <= 30` and accepts `q`. -/
theorem angle_acceptance_mismatch :
    acceptsCandidate 2 30 ⟨((0 : ℚ), (0 : ℚ)), ((1 : ℚ), (0 : ℚ))⟩ ((2 : ℚ), (0 : ℚ))
    ∧ claimRejects 30 ⟨((0 : ℚ), (0 : ℚ)), ((1 : ℚ), (0 : ℚ))⟩ ((2 : ℚ), (0 : ℚ)) := by
  have habs90 : |(90 : ℝ)| = 90 := abs_of_nonneg (by norm_num)
  have habsneg90 : |(-90 : ℝ)| = 90 := by
    rw [abs_neg]
    exact habs90
  have hcode : codeAngleDiff ⟨((0 : ℚ), (0 : ℚ)), ((1 : ℚ), (0 : ℚ))⟩
      ((2 : ℚ), (0 : ℚ)) = 0 := by
    unfold codeAngleDiff
    rw [show (⟨((0 : ℚ), (0 : ℚ)), ((1 : ℚ), (0 : ℚ))⟩ : DeadEnd).otherEnd
      = ((1 : ℚ), (0 : ℚ)) from rfl]
    rw [show (⟨((0 : ℚ), (0 : ℚ)), ((1 : ℚ), (0 : ℚ))⟩ : DeadEnd).wkt
      = ((0 : ℚ), (0 : ℚ)) from rfl]
    rw [getAngle_west, getAngle_east, habs90, habsneg90]
    norm_num
  refine ⟨⟨by decide, ?_, ?_⟩, ?_⟩
  · rw [sqrt_sqDist_horizontal]
    norm_num
  · rw [hcode]
    norm_num
  · unfold claimRejects
    rw [show (⟨((0 : ℚ), (0 : ℚ)), ((1 : ℚ), (0 : ℚ))⟩ : DeadEnd).otherEnd
      = ((1 : ℚ), (0 : ℚ)) from rfl]
    rw [show (⟨((0 : ℚ), (0 : ℚ)), ((1 : ℚ), (0 : ℚ))⟩ : DeadEnd).wkt
      = ((0 : ℚ), (0 : ℚ)) from rfl]
    unfold orientationDiff
    rw [getAngle_west, getAngle_east]
    rw [show (90 : ℝ) - (-90) = 180 by norm_num]
    rw [show |(180 : ℝ)| = 180 from abs_of_nonneg (by norm_num)]
    norm_num

/-- C6 (amended) For a candidate `q ≠ p_other` within `max_distance` of a
dead-end `p`, the code rejects `q` if and only if
`abs(abs(angle(p_other→p)) - abs(angle(p→q))) > max_angle`, with angles
from `np.degrees(np.arctan2(dx, dy))`.  This differs from the
orientation-modulo difference of the two bearings that the original claim
states (see the counterexample, where the code's difference is 0 and the
orientation-modulo difference is 180). -/
theorem angle_rejection_law (maxDistance maxAngle : ℚ) (d : DeadEnd) (q : Point)
    (hq : q ≠ d.otherEnd)
    (hd : Real.sqrt ((sqDist d.wkt q : ℚ) : ℝ) ≤ ((maxDistance : ℚ) : ℝ)) :
    ¬ acceptsCandidate maxDistance maxAngle d q
      ↔ codeAngleDiff d q > ((maxAngle : ℚ) : ℝ) := by
  unfold acceptsCandidate
  constructor
  · intro hno
    by_contra hle
    push_neg at hle
    exact hno ⟨hq, hd, hle⟩
  · intro hgt hacc
    exact absurd hacc.2.2 (not_le.mpr hgt)

/-- Evaluation of `angle_rejection_law` at the concrete configuration of
the counterexample. -/
theorem angle_rejection_law_witness :
    ¬ acceptsCandidate 2 30 ⟨((0 : ℚ), (0 : ℚ)), ((1 : ℚ), (0 : ℚ))⟩
        ((2 : ℚ), (0 : ℚ))
      ↔ codeAngleDiff ⟨((0 : ℚ), (0 : ℚ)), ((1 : ℚ), (0 : ℚ))⟩ ((2 : ℚ), (0 : ℚ))
        > (((30 : ℚ) : ℚ) : ℝ) :=
  angle_rejection_law 2 30 ⟨((0 : ℚ), (0 : ℚ)), ((1 : ℚ), (0 : ℚ))⟩
    ((2 : ℚ), (0 : ℚ)) (by decide)
    (by rw [sqrt_sqDist_horizontal]; norm_num)

/-! ## Point connector window (C7)

The code attaching query points to network nodes (`points.py`) is not
under `src/`; the window rule is modelled from the spec (section 4.5, Mode
A) and the `search_factor` docstring of `networkanalysisrules.py` (lines
27-35): with nearest-node distance `d*`, tolerance `t` and factor `f`, a
node at distance `dist` is used iff `dist ≤ t` and
`dist ≤ d*(1 + f/100) + f`. -/

/-- Modelled from the spec: the endpoint-attach node window of the point
connector.  `dists` lists `(node_id, distance)` for one query point; the
kept nodes are those within `search_tolerance` and within
`d_min*(1 + search_factor/100) + search_factor` of the nearest
distance. -/
def relevantNetworkNodes (dists : List (ℕ × ℚ)) (tol fac : ℚ) : List (ℕ × ℚ) :=
  match listMinQ (dists.map (·.2)) with
  | none => []
  | some dmin =>
    dists.filter fun nd =>
      decide (nd.2 ≤ tol) && decide (nd.2 ≤ dmin * (1 + fac / 100) + fac)

theorem listMinQ_mem (l : List ℚ) (m : ℚ) (hm : listMinQ l = some m) : m ∈ l := by
  induction l generalizing m with
  | nil => exact Option.noConfusion hm
  | cons x xs ih =>
    unfold listMinQ at hm
    cases hxs : listMinQ xs with
    | none =>
      rw [hxs] at hm
      rw [← Option.some_inj.mp hm]
      simp
    | some m2 =>
      rw [hxs] at hm
      have hmin := Option.some_inj.mp hm
      rcases min_cases x m2 with ⟨heq, _⟩ | ⟨heq, _⟩
      · rw [← hmin, heq]
        simp
      · rw [← hmin, heq]
        exact List.mem_cons_of_mem x (ih m2 hxs)

theorem listMinQ_le (l : List ℚ) (m : ℚ) (hm : listMinQ l = some m) :
    ∀ x ∈ l, m ≤ x := by
  induction l generalizing m with
  | nil => exact fun x hx => absurd hx (List.not_mem_nil x)
  | cons y ys ih =>
    intro x hx
    unfold listMinQ at hm
    cases hys : listMinQ ys with
    | none =>
      cases ys with
      | nil =>
        rw [hys] at hm
        rw [List.mem_singleton.mp hx, ← Option.some_inj.mp hm]
      | cons z zs =>
        exfalso
        obtain ⟨m2, hm2⟩ := listMinQ_isSome (z :: zs) (by simp)
        rw [hm2] at hys
        exact Option.noConfusion hys
    | some m2 =>
      rw [hys] at hm
      have hmin := Option.some_inj.mp hm
      rcases List.mem_cons.mp hx with rfl | hmem
      · rw [← hmin]
        exact min_le_left _ _
      · calc m = min y m2 := hmin.symm
          _ ≤ m2 := min_le_right _ _
          _ ≤ x := ih m2 hys x hmem

theorem listMinQ_eq_of_min (l : List ℚ) (dmin : ℚ) (hmem : dmin ∈ l)
    (hle : ∀ x ∈ l, dmin ≤ x) : listMinQ l = some dmin := by
  obtain ⟨m, hm⟩ := listMinQ_isSome l (List.ne_nil_of_mem hmem)
  rw [hm]
  congr 1
  exact le_antisymm (listMinQ_le l m hm dmin hmem) (hle m (listMinQ_mem l m hm))

/-- C7 For a query point whose candidate nodes lie at the given distances,
with nearest distance `dmin`, a node becomes a connector if and only if
its distance is at most `search_tolerance` and at most
`dmin*(1 + search_factor/100) + search_factor`. -/
theorem connector_window_law (dists : List (ℕ × ℚ)) (tol fac dmin : ℚ)
    (hmem : dmin ∈ dists.map (·.2))
    (hle : ∀ x ∈ dists.map (·.2), dmin ≤ x) :
    ∀ nd, nd ∈ relevantNetworkNodes dists tol fac
      ↔ nd ∈ dists ∧ nd.2 ≤ tol ∧ nd.2 ≤ dmin * (1 + fac / 100) + fac := by
  intro nd
  unfold relevantNetworkNodes
  rw [listMinQ_eq_of_min _ dmin hmem hle]
  rw [List.mem_filter]
  simp [Bool.and_eq_true, decide_eq_true_eq, and_assoc]

/-- Evaluation of `connector_window_law` on the docstring example of
`networkanalysisrules.py` (`search_factor = 10`, nearest node 1 meter
away): the window is `1*1.1 + 10 = 11.1` meters, so a node at distance 11
is connected and a node at distance 12 is not. -/
theorem connector_window_law_witness :
    ((8, 11) ∈ relevantNetworkNodes [(7, 1), (8, 11), (9, 12)] 250 10)
    ∧ ((9, 12) ∉ relevantNetworkNodes [(7, 1), (8, 11), (9, 12)] 250 10) := by
  have hlaw := connector_window_law [(7, 1), (8, 11), (9, 12)] 250 10 1
    (by decide) (by decide)
  constructor
  · rw [hlaw (8, 11)]
    refine ⟨by decide, by norm_num, by norm_num⟩
  · intro hmem
    obtain ⟨-, -, hwin⟩ := (hlaw (9, 12)).mp hmem
    norm_num at hwin
